import Mathlib

/-!
Shallow embedding of the PII redaction core of `src/app.py`
(`blackout`, `redact_labels`, `redact_patterns`, `redact_text_content`,
the `PII_LABELS` catalog and the `PATTERNS` table), together with an
embedding of the fragment of Python's `re` engine that those functions
use: backtracking matching with Python's preference order (leftmost
match, greedy/lazy quantifiers, ordered alternation, word boundaries,
case-insensitive literals) and `re.sub`'s left-to-right non-overlapping
replacement over the original text.

Strings are embedded as `List Char`.  Character classes follow the
ASCII reading of Python's `\s`, `\d`, `\w`; all catalog entries and all
claim inputs are ASCII (plus the mask glyph and the en dash, which are
not letters, digits, whitespace or word characters in Python either).
-/

namespace Redact

/-- The masking glyph `█` used by `blackout` in `src/app.py`. -/
def maskGlyph : Char := '█'

/-- Python `\s` (ASCII part): space, tab, newline, carriage return,
vertical tab, form feed. -/
def isWSChar (c : Char) : Bool :=
  c = ' ' || c = '\t' || c = '\n' || c = '\x0d' || c = '\x0b' || c = '\x0c'

/-- Python `\d` (ASCII part). -/
def isDigitChar (c : Char) : Bool := c.isDigit

/-- Python `\w` (ASCII part), used by the `\b` word-boundary assertion. -/
def isWordChar (c : Char) : Bool := c.isAlphanum || c = '_'

/-- The class `[^\n\r]` used for the label value. -/
def nonTermChar (c : Char) : Bool := !(c = '\n' || c = '\x0d')

/-- Case-insensitive character comparison (flag `re.I`; ASCII case folding). -/
def ciEq (a b : Char) : Bool := a.toLower == b.toLower

/-- Regular expressions, restricted to the constructs appearing in the
patterns of `src/app.py`.  `clsRep p lo hi lz` is a counted repetition of a
single character class (`*`, `+`, `?`, `{m,n}`, `{m,}` over a class),
greedy when `lz = false` and lazy when `lz = true`; `opt` is a greedy `?`;
`alt` tries its left branch first, as Python does; `wordB` is `\b`;
`group i r` is a capturing group numbered `i`. -/
inductive RE : Type where
  | eps
  | cls (p : Char → Bool)
  | cat (a b : RE)
  | alt (a b : RE)
  | opt (a : RE)
  | clsRep (p : Char → Bool) (lo : Nat) (hi : Option Nat) (lz : Bool)
  | wordB
  | group (i : Nat) (a : RE)

/-- One way a regex can match a prefix of the remaining input:
the consumed characters, the rest of the input, and the captured groups. -/
structure MRes where
  consumed : List Char
  rest : List Char
  caps : List (Nat × List Char)
deriving DecidableEq

/-- The character preceding the current position after consuming
`consumed` (used by `\b`); falls back to the previous context character. -/
def prevAfter (prev : Option Char) (consumed : List Char) : Option Char :=
  match consumed.getLast? with
  | some c => some c
  | none => prev

/-- Whether an optional context character is a word character
(out of range counts as non-word, as in Python). -/
def optWord (o : Option Char) : Bool :=
  match o with
  | some c => isWordChar c
  | none => false

/-- All ways `re` can match a prefix of `s`, in Python's backtracking
preference order (first element = the match Python's engine returns).
`prev` is the character just before `s` in the full text, for `\b`. -/
def reMatches (re : RE) (prev : Option Char) (s : List Char) : List MRes :=
  match re with
  | .eps => [⟨[], s, []⟩]
  | .cls p =>
    match s with
    | [] => []
    | c :: t => if p c then [⟨[c], t, []⟩] else []
  | .cat a b =>
    (reMatches a prev s).flatMap fun m1 =>
      (reMatches b (prevAfter prev m1.consumed) m1.rest).map fun m2 =>
        ⟨m1.consumed ++ m2.consumed, m2.rest, m1.caps ++ m2.caps⟩
  | .alt a b => reMatches a prev s ++ reMatches b prev s
  | .opt a => reMatches a prev s ++ [⟨[], s, []⟩]
  | .clsRep p lo hi lz =>
    let run := (s.takeWhile p).length
    let top := match hi with | some h => min h run | none => run
    (List.range (top + 1 - lo)).map fun k =>
      let n := if lz then lo + k else top - k
      ⟨s.take n, s.drop n, []⟩
  | .wordB => if optWord prev != optWord s.head? then [⟨[], s, []⟩] else []
  | .group i a =>
    (reMatches a prev s).map fun m => ⟨m.consumed, m.rest, m.caps ++ [(i, m.consumed)]⟩

/-- Every match splits the input: consumed characters followed by the rest. -/
theorem reMatches_consumed_append {re : RE} {prev : Option Char} {s : List Char}
    {m : MRes} (h : m ∈ reMatches re prev s) : m.consumed ++ m.rest = s := by
  induction re generalizing prev s m with
  | eps => simp [reMatches] at h; simp [h]
  | cls p =>
    cases s with
    | nil => simp [reMatches] at h
    | cons c t =>
      simp only [reMatches] at h
      by_cases hp : p c
      · simp [hp] at h; simp [h]
      · simp [hp] at h
  | cat a b iha ihb =>
    simp only [reMatches, List.mem_flatMap, List.mem_map] at h
    obtain ⟨m1, hm1, m2, hm2, rfl⟩ := h
    have h1 := iha hm1
    have h2 := ihb hm2
    simp only [List.append_assoc, h2, h1]
  | alt a b iha ihb =>
    simp only [reMatches, List.mem_append] at h
    rcases h with h | h
    · exact iha h
    · exact ihb h
  | opt a iha =>
    simp only [reMatches, List.mem_append, List.mem_singleton] at h
    rcases h with h | h
    · exact iha h
    · simp [h]
  | clsRep p lo hi lz =>
    simp only [reMatches, List.mem_map, List.mem_range] at h
    obtain ⟨k, _, rfl⟩ := h
    simpa using List.take_append_drop _ s
  | wordB =>
    simp only [reMatches] at h
    by_cases hb : optWord prev != optWord s.head?
    · simp [hb] at h; simp [h]
    · simp [hb] at h
  | group i a iha =>
    simp only [reMatches, List.mem_map] at h
    obtain ⟨m1, hm1, rfl⟩ := h
    simpa using iha hm1

theorem mem_of_head?_eq {α : Type} {l : List α} {a : α} (h : l.head? = some a) :
    a ∈ l := by
  cases l with
  | nil => simp at h
  | cons x xs =>
    simp only [List.head?_cons, Option.some.injEq] at h
    simp [h]

/-- Embedding of `re.sub(re, repl, s)`: scan left to right over the original
text, at each position take the engine's preferred match if any (replacing it
and resuming after it), otherwise copy one character.  A zero-width match is
replaced and the scan advances one character, as Python does.  The scan is
driven by a fuel parameter for structural recursion; every step strictly
shrinks the text, so any fuel exceeding the text length is enough. -/
def reSubF (re : RE) (repl : MRes → List Char) :
    Nat → Option Char → List Char → List Char
  | 0, _, s => s
  | fuel + 1, prev, s =>
    match (reMatches re prev s).head? with
    | some m =>
      if m.consumed = [] then
        match s with
        | [] => repl m
        | c :: t => repl m ++ c :: reSubF re repl fuel (some c) t
      else
        repl m ++ reSubF re repl fuel (prevAfter prev m.consumed) m.rest
    | none =>
      match s with
      | [] => []
      | c :: t => c :: reSubF re repl fuel (some c) t

/-- `re.sub(re, repl, s)` with context character `prev` before `s`. -/
def reSub (re : RE) (repl : MRes → List Char) (prev : Option Char)
    (s : List Char) : List Char :=
  reSubF re repl (s.length + 1) prev s

/-- The `blackout` function of `src/app.py`:
`def blackout(s): return "█" * len(s)`. -/
def blackout (s : List Char) : List Char := List.replicate s.length maskGlyph

/-- Contents of capture group `i` of a match (empty if absent). -/
def getGroup (caps : List (Nat × List Char)) (i : Nat) : List Char :=
  match caps.lookup i with
  | some l => l
  | none => []

/-- A case-insensitively matched literal string (`re.escape(label)` with
`re.I`: each character of the label matched literally, ignoring case). -/
def litCI : List Char → RE
  | [] => .eps
  | c :: cs => .cat (.cls (ciEq c)) (litCI cs)

/-- The separator class `[:\-–]` of the label pattern. -/
def sepChar (c : Char) : Bool := c = ':' || c = '-' || c = '–'

/-- The `\s*` of the label pattern (greedy). -/
def wsStar : RE := .clsRep isWSChar 0 none false

/-- The `([^\n\r]+)` value part of the label pattern (greedy). -/
def valuePlus : RE := .clsRep nonTermChar 1 none false

/-- The label pattern built in `redact_labels`:
`({re.escape(label)}\s*[:\-–]\s*)([^\n\r]+)` with flag `re.I`. -/
def labelRE (lbl : List Char) : RE :=
  .cat (.group 1 (.cat (litCI lbl) (.cat wsStar (.cat (.cls sepChar) wsStar))))
       (.group 2 valuePlus)

/-- The replacement callback of `redact_labels`:
`lambda m: m.group(1) + blackout(m.group(2))`. -/
def labelRepl (m : MRes) : List Char :=
  getGroup m.caps 1 ++ blackout (getGroup m.caps 2)

/-- The replacement callback of `redact_patterns`:
`lambda m: blackout(m.group(0))`. -/
def patternRepl (m : MRes) : List Char := blackout m.consumed

/-- A single literal character (case-sensitive; used for characters
without case). -/
def chr (c : Char) : RE := .cls (fun x => x == c)

/-- `\d{lo,hi}` (greedy). -/
def digitRep (lo hi : Nat) : RE := .clsRep isDigitChar lo (some hi) false

/-- The phone separator class `[-.\s]`. -/
def phoneSep (c : Char) : Bool := c = '-' || c = '.' || isWSChar c

/-- The credit-card separator class `[-\s]`. -/
def ccSep (c : Char) : Bool := c = '-' || isWSChar c

/-- The date separator class `[\/\-.]`. -/
def dateSep (c : Char) : Bool := c = '/' || c = '-' || c = '.'

/-- The email local-part class `[A-Za-z0-9._%+-]`. -/
def localChar (c : Char) : Bool :=
  c.isAlphanum || c = '.' || c = '_' || c = '%' || c = '+' || c = '-'

/-- The email domain class `[A-Za-z0-9.-]`. -/
def domainChar (c : Char) : Bool := c.isAlphanum || c = '.' || c = '-'

/-- The class `[A-Za-z]`. -/
def alphaChar (c : Char) : Bool := c.isAlpha

/-- Right-nested concatenation of a list of regexes. -/
def cats : List RE → RE
  | [] => .eps
  | [r] => r
  | r :: rs => .cat r (cats rs)

/-- `PATTERNS["SSN"] = \b\d{3}-\d{2}-\d{4}\b`. -/
def ssnRE : RE :=
  cats [.wordB, digitRep 3 3, chr '-', digitRep 2 2, chr '-', digitRep 4 4, .wordB]

/-- `PATTERNS["Phone"] = \b\+?\d{1,3}?[-.\s]?\(?\d{2,4}\)?[-.\s]?\d{3,4}[-.\s]?\d{3,4}\b`
(`\d{1,3}?` is lazy, all other quantifiers greedy). -/
def phoneRE : RE :=
  cats [.wordB, .opt (chr '+'), .clsRep isDigitChar 1 (some 3) true,
        .opt (.cls phoneSep), .opt (chr '('), digitRep 2 4, .opt (chr ')'),
        .opt (.cls phoneSep), digitRep 3 4, .opt (.cls phoneSep), digitRep 3 4,
        .wordB]

/-- `PATTERNS["Email"] = \b[A-Za-z0-9._%+-]+@[A-Za-z0-9.-]+\.[A-Za-z]{2,}\b`. -/
def emailRE : RE :=
  cats [.wordB, .clsRep localChar 1 none false, chr '@',
        .clsRep domainChar 1 none false, chr '.',
        .clsRep alphaChar 2 none false, .wordB]

/-- One repetition unit `\d{4}[-\s]?` of the credit-card pattern. -/
def ccUnit : RE := .cat (digitRep 4 4) (.opt (.cls ccSep))

/-- `PATTERNS["CreditCard"] = \b(?:\d{4}[-\s]?){3}\d{4}\b`
(the bounded repetition `{3}` unrolled into three copies). -/
def creditCardRE : RE :=
  cats [.wordB, ccUnit, ccUnit, ccUnit, digitRep 4 4, .wordB]

/-- The month alternative `(?:0?[1-9]|1[0-2])` of the date pattern. -/
def monthRE : RE :=
  .alt (.cat (.opt (chr '0')) (.cls fun c => '1' ≤ c && c ≤ '9'))
       (.cat (chr '1') (.cls fun c => '0' ≤ c && c ≤ '2'))

/-- The day alternative `(?:0?[1-9]|[12]\d|3[01])` of the date pattern. -/
def dayRE : RE :=
  .alt (.cat (.opt (chr '0')) (.cls fun c => '1' ≤ c && c ≤ '9'))
       (.alt (.cat (.cls fun c => c = '1' || c = '2') (.cls isDigitChar))
             (.cat (chr '3') (.cls fun c => c = '0' || c = '1')))

/-- `PATTERNS["Date"] = \b(?:0?[1-9]|1[0-2])[\/\-.](?:0?[1-9]|[12]\d|3[01])[\/\-.]\d{4}\b`. -/
def dateRE : RE :=
  cats [.wordB, monthRE, .cls dateSep, dayRE, .cls dateSep, digitRep 4 4, .wordB]

/-- The `PII_LABELS` list of `src/app.py`, verbatim, in source order
(duplicates included). -/
def PII_LABELS : List String := [
    "government issued id", "Government Issued ID", "GOVERNMENT ISSUED ID",
    "govt issued id", "gov issued id", "gov issued identification",
    "gov id", "govt id", "government id", "government identification",
    "id issued by government", "government identity card",
    "id card", "identity card", "identification id",
    "official id", "official identification", "national id",
    "national identification", "gov identity",
    "social security number", "Social Security Number", "SOCIAL SECURITY NUMBER",
    "ssn", "SSN", "S.S.N.", "social security no", "ss number",
    "soc sec no", "ssn number", "social sec number", "social security #",
    "tax id", "Tax ID", "TAX ID", "tax identification number",
    "tin", "TIN", "T.I.N.", "tax no", "tax number",
    "taxpayer id", "tax payer number",
    "federal employer id", "Federal Employer ID", "FEDERAL EMPLOYER ID",
    "employer id", "employer identification", "feid", "FEID", "F.E.I.D.",
    "fein", "FEIN", "F.E.I.N.", "federal employer identification number",
    "fein number", "federal ein", "employer ein",
    "driver's license", "Driver's License", "Driver' s License","License","DRIVER'S LICENSE",
    "drivers license", "driver license", "driving license",
    "dl number", "DL", "D.L.", "license number", "driver id",
    "identification card", "Identification Card", "ID card",
    "identity card", "id", "ID", "identification", "id number",
    "identification number",
    "passport", "Passport", "PASSPORT", "passport number",
    "passport no", "pp number", "passport id",
    "military id", "Military ID", "MILITARY ID",
    "army id", "navy id", "airforce id", "defense id",
    "military identification",
    "date of birth", "Date of Birth", "DATE OF BIRTH",
    "dob", "DOB", "birth date", "birth info","D.o.B.","DOB",
    "date born", "born on", "birthdate","D.O.B.",
    "home address", "Home Address", "HOME ADDRESS",
    "residential address", "residence address", "address", "addr","ADDRESS",
    "street address", "street addr", "residential addr","Address",
    "home telephone number", "Home Telephone number",
    "HOME TELEPHONE NUMBER", "telephone number",
    "home phone", "landline", "tel number",
    "cell phone number", "Cell phone number", "CELL PHONE NUMBER",
    "mobile number", "mobile no", "cell number", "phone number",
    "contact number", "contact no","ph number","Cell No",
    "email address", "Email Address", "EMAIL ADDRESS",
    "email", "e-mail", "email id", "mail id","Email","email ID","eMail","gmail","g-mail",
    "social media contact information", "Social Media Contact Information",
    "SOCIAL MEDIA CONTACT INFORMATION", "social media info",
    "social handle", "social contact", "social media account",
    "health insurance policy number", "Health Insurance Policy Number",
    "insurance policy number", "policy number", "policy no",
    "health insurance number", "insurance number",
    "medical record number", "Medical Record Number",
    "MRN", "mrn", "medical record no", "med record number","medical","record","number",
    "claim number", "Claim Number", "CLAIM NUMBER",
    "claim no", "claim id",
    "patient account number", "Patient Account Number",
    "PATIENT ACCOUNT NUMBER", "patient id", "patient account",
    "file number", "File Number", "FILE NUMBER",
    "file no", "file id", "file reference",
    "chart number", "Chart Number", "CHART NUMBER",
    "chart no", "chart id",
    "individual financial account number", "Individual Financial Account Number",
    "financial account number", "financial account", "account number",
    "bank account number", "Bank Account Number", "BANK ACCOUNT NUMBER",
    "bank no", "account no", "acct number",
    "financial information", "Financial Information",
    "FINANCIAL INFORMATION", "financial data", "financial details",
    "credit card number", "Credit Card Number", "CREDIT CARD NUMBER",
    "credit card", "card number", "cc number", "card no"]

/-- The `PATTERNS` dict of `src/app.py`, as the ordered association list
Python iterates over (insertion order). -/
def PATTERNS : List (String × RE) :=
  [("SSN", ssnRE), ("Phone", phoneRE), ("Email", emailRE),
   ("CreditCard", creditCardRE), ("Date", dateRE)]

/-- `redact_labels` of `src/app.py`: one `re.sub` pass per catalog label,
in catalog order, each over the whole current text. -/
def redact_labels (s : List Char) : List Char :=
  PII_LABELS.foldl (fun t lbl => reSub (labelRE lbl.data) labelRepl none t) s

/-- `redact_patterns` of `src/app.py`: one `re.sub` pass per structural
pattern, in table order. -/
def redact_patterns (s : List Char) : List Char :=
  PATTERNS.foldl (fun t p => reSub p.2 patternRepl none t) s

/-- `redact_text_content` of `src/app.py`:
`redact_patterns(redact_labels(text))`. -/
def redact_text_content (s : List Char) : List Char :=
  redact_patterns (redact_labels s)

/-- Characters taken from the front of a `takeWhile`-run satisfy the class. -/
theorem take_sat_of_le_takeWhile {p : Char → Bool} :
    ∀ (s : List Char) (n : Nat), n ≤ (s.takeWhile p).length →
      ∀ c ∈ s.take n, p c := by
  intro s
  induction s with
  | nil => intro n _ c hc; simp at hc
  | cons a t ih =>
    intro n hn c hc
    cases n with
    | zero => simp at hc
    | succ n =>
      by_cases hp : p a
      · simp only [List.takeWhile_cons, hp, if_true, List.length_cons,
          Nat.succ_le_succ_iff] at hn
        simp only [List.take_succ_cons, List.mem_cons] at hc
        rcases hc with rfl | hc
        · exact hp
        · exact ih n hn c hc
      · simp [List.takeWhile_cons, hp] at hn

/-- Membership characterization for matches of a class repetition. -/
theorem mem_clsRep {p : Char → Bool} {lo : Nat} {hi : Option Nat} {lz : Bool}
    {prev : Option Char} {s : List Char} {m : MRes}
    (h : m ∈ reMatches (.clsRep p lo hi lz) prev s) :
    ∃ n, lo ≤ n ∧ n ≤ (s.takeWhile p).length ∧
      m = ⟨s.take n, s.drop n, []⟩ := by
  simp only [reMatches, List.mem_map, List.mem_range] at h
  obtain ⟨k, hk, rfl⟩ := h
  set run := (s.takeWhile p).length with hrun
  set top := (match hi with | some h => min h run | none => run) with htop
  have htoprun : top ≤ run := by
    rw [htop]; cases hi <;> simp
  refine ⟨if lz then lo + k else top - k, ?_, ?_, rfl⟩
  · by_cases hlz : lz <;> simp [hlz] <;> omega
  · by_cases hlz : lz <;> simp [hlz] <;> omega

/-- Membership characterization for matches of a single class. -/
theorem mem_cls {p : Char → Bool} {prev : Option Char} {s : List Char} {m : MRes}
    (h : m ∈ reMatches (.cls p) prev s) :
    ∃ c t, s = c :: t ∧ p c ∧ m = ⟨[c], t, []⟩ := by
  cases s with
  | nil => simp [reMatches] at h
  | cons c t =>
    simp only [reMatches] at h
    by_cases hp : p c
    · simp only [hp, if_true, List.mem_singleton] at h
      exact ⟨c, t, rfl, hp, h⟩
    · simp [hp] at h

/-- One-step decomposition of a concatenation match. -/
theorem mem_cat {a b : RE} {prev : Option Char} {s : List Char} {m : MRes}
    (h : m ∈ reMatches (.cat a b) prev s) :
    ∃ m1 ∈ reMatches a prev s,
      ∃ m2 ∈ reMatches b (prevAfter prev m1.consumed) m1.rest,
        m = ⟨m1.consumed ++ m2.consumed, m2.rest, m1.caps ++ m2.caps⟩ := by
  have h' : m ∈ (reMatches a prev s).flatMap fun m1 =>
      (reMatches b (prevAfter prev m1.consumed) m1.rest).map fun m2 =>
        ⟨m1.consumed ++ m2.consumed, m2.rest, m1.caps ++ m2.caps⟩ := h
  simp only [List.mem_flatMap, List.mem_map] at h'
  obtain ⟨m1, hm1, m2, hm2, heq⟩ := h'
  exact ⟨m1, hm1, m2, hm2, heq.symm⟩

/-- One-step decomposition of a capturing-group match. -/
theorem mem_group {i : Nat} {a : RE} {prev : Option Char} {s : List Char}
    {m : MRes} (h : m ∈ reMatches (.group i a) prev s) :
    ∃ m1 ∈ reMatches a prev s,
      m = ⟨m1.consumed, m1.rest, m1.caps ++ [(i, m1.consumed)]⟩ := by
  have h' : m ∈ (reMatches a prev s).map fun m1 =>
      ⟨m1.consumed, m1.rest, m1.caps ++ [(i, m1.consumed)]⟩ := h
  simp only [List.mem_map] at h'
  obtain ⟨m1, hm1, heq⟩ := h'
  exact ⟨m1, hm1, heq.symm⟩

/-- A case-insensitive literal consumes exactly as many characters as the
literal has, and captures nothing. -/
theorem mem_litCI {l : List Char} {prev : Option Char} {s : List Char} {m : MRes}
    (h : m ∈ reMatches (litCI l) prev s) :
    m.consumed.length = l.length ∧ m.caps = [] := by
  induction l generalizing prev s m with
  | nil => simp only [litCI, reMatches, List.mem_singleton] at h; simp [h]
  | cons c cs ih =>
    obtain ⟨m1, hm1, m2, hm2, rfl⟩ := mem_cat (a := .cls (ciEq c)) (b := litCI cs) h
    obtain ⟨c', t, rfl, hp, rfl⟩ := mem_cls hm1
    have := ih hm2
    simp [this]

/-- The length of a `takeWhile`-run is at most the length of the list. -/
theorem tw_len_le {α : Type} (p : α → Bool) :
    ∀ l : List α, (l.takeWhile p).length ≤ l.length := by
  intro l
  induction l with
  | nil => simp
  | cons a t ih =>
    by_cases hp : p a
    · simpa [List.takeWhile_cons, hp] using ih
    · simp [List.takeWhile_cons, hp]

/-- Full decomposition of a match of the label pattern
`(label\s*[:\-–]\s*)([^\n\r]+)`: the consumed text splits into the literal
label, leading whitespace, one separator, trailing whitespace (group 1),
and a nonempty terminator-free value (group 2). -/
theorem labelRE_mem {lbl : List Char} {prev : Option Char} {s : List Char}
    {m : MRes} (h : m ∈ reMatches (labelRE lbl) prev s) :
    ∃ cl w1 cs w2 cv,
      m.consumed = (cl ++ (w1 ++ cs :: w2)) ++ cv ∧
      m.caps = [(1, cl ++ (w1 ++ cs :: w2)), (2, cv)] ∧
      cl.length = lbl.length ∧
      (∀ c ∈ w1, isWSChar c) ∧ sepChar cs ∧ (∀ c ∈ w2, isWSChar c) ∧
      cv ≠ [] ∧ (∀ c ∈ cv, nonTermChar c) := by
  obtain ⟨m1, hm1, m2, hm2, rfl⟩ := mem_cat h
  obtain ⟨g1, hg1, rfl⟩ := mem_group hm1
  obtain ⟨g2, hg2, rfl⟩ := mem_group hm2
  obtain ⟨ml, hml, r1, hr1, rfl⟩ := mem_cat hg1
  obtain ⟨mw1, hmw1, r2, hr2, rfl⟩ := mem_cat hr1
  obtain ⟨msep, hmsep, mw2, hmw2, rfl⟩ := mem_cat hr2
  obtain ⟨hlitlen, hlitcaps⟩ := mem_litCI hml
  obtain ⟨n1, _, hn1, rfl⟩ := mem_clsRep hmw1
  obtain ⟨cc, tt, hcc, hsep, rfl⟩ := mem_cls hmsep
  obtain ⟨n2, _, hn2, rfl⟩ := mem_clsRep hmw2
  obtain ⟨nv, hnv1, hnv2, rfl⟩ := mem_clsRep hg2
  refine ⟨ml.consumed, _, cc, _, _, by simp, ?_, hlitlen,
    fun c hc => take_sat_of_le_takeWhile _ _ hn1 c hc, hsep,
    fun c hc => take_sat_of_le_takeWhile _ _ hn2 c hc, ?_,
    fun c hc => take_sat_of_le_takeWhile _ _ hnv2 c hc⟩
  · simp [hlitcaps]
  · intro hnil
    have hlen := congrArg List.length hnil
    dsimp only at hnv2 hlen
    simp only [List.length_take, List.length_nil] at hlen
    have hle := tw_len_le nonTermChar (List.drop n2 tt)
    omega

/-- Pointwise relation between an output character and the input character at
the same position: either unchanged, or masked, in which case the original
character satisfied `Q`. -/
def MaskRel (Q : Char → Prop) (a b : Option Char) : Prop :=
  a = b ∨ (a = some maskGlyph ∧ ∃ c, b = some c ∧ Q c)

theorem maskRel_refl (Q : Char → Prop) (o : Option Char) : MaskRel Q o o :=
  Or.inl rfl

theorem maskRel_trans {Q : Char → Prop} {a b c : Option Char}
    (h1 : MaskRel Q a b) (h2 : MaskRel Q b c) : MaskRel Q a c := by
  rcases h1 with rfl | ⟨ha, d, hb, hd⟩
  · exact h2
  · rcases h2 with rfl | ⟨hb', e, hc, he⟩
    · exact Or.inr ⟨ha, d, hb, hd⟩
    · exact Or.inr ⟨ha, e, hc, he⟩

theorem maskRel_mono {Q Q' : Char → Prop} (h : ∀ c, Q c → Q' c)
    {a b : Option Char} (hr : MaskRel Q a b) : MaskRel Q' a b := by
  rcases hr with rfl | ⟨ha, d, hb, hd⟩
  · exact Or.inl rfl
  · exact Or.inr ⟨ha, d, hb, h d hd⟩

/-- Contract on a replacement callback: it produces a string of the same
length as the matched span, pointwise `MaskRel Q`-related to it. -/
def ReplSpec (re : RE) (repl : MRes → List Char) (Q : Char → Prop) : Prop :=
  ∀ prev s m, m ∈ reMatches re prev s →
    (repl m).length = m.consumed.length ∧
    ∀ j : Nat, MaskRel Q ((repl m)[j]?) (m.consumed[j]?)

theorem reSubF_eq_none_nil {re : RE} {repl : MRes → List Char} {fuel : Nat}
    {prev : Option Char} (hh : (reMatches re prev []).head? = none) :
    reSubF re repl (fuel + 1) prev [] = [] := by
  simp only [reSubF, hh]

theorem reSubF_eq_none_cons {re : RE} {repl : MRes → List Char} {fuel : Nat}
    {prev : Option Char} {c : Char} {t : List Char}
    (hh : (reMatches re prev (c :: t)).head? = none) :
    reSubF re repl (fuel + 1) prev (c :: t) =
      c :: reSubF re repl fuel (some c) t := by
  simp only [reSubF, hh]

theorem reSubF_eq_zero_nil {re : RE} {repl : MRes → List Char} {fuel : Nat}
    {prev : Option Char} {m : MRes}
    (hh : (reMatches re prev []).head? = some m) (hc : m.consumed = []) :
    reSubF re repl (fuel + 1) prev [] = repl m := by
  simp only [reSubF, hh, hc, if_true]

theorem reSubF_eq_zero_cons {re : RE} {repl : MRes → List Char} {fuel : Nat}
    {prev : Option Char} {c : Char} {t : List Char} {m : MRes}
    (hh : (reMatches re prev (c :: t)).head? = some m) (hc : m.consumed = []) :
    reSubF re repl (fuel + 1) prev (c :: t) =
      repl m ++ c :: reSubF re repl fuel (some c) t := by
  simp only [reSubF, hh, hc, if_true]

theorem reSubF_eq_repl {re : RE} {repl : MRes → List Char} {fuel : Nat}
    {prev : Option Char} {s : List Char} {m : MRes}
    (hh : (reMatches re prev s).head? = some m) (hc : m.consumed ≠ []) :
    reSubF re repl (fuel + 1) prev s =
      repl m ++ reSubF re repl fuel (prevAfter prev m.consumed) m.rest := by
  simp only [reSubF, hh, hc, if_false]

/-- A substitution pass relates output to input pointwise by `MaskRel Q`
whenever the replacement callback satisfies its contract. -/
theorem reSubF_rel {re : RE} {repl : MRes → List Char} {Q : Char → Prop}
    (hspec : ReplSpec re repl Q) :
    ∀ (fuel : Nat) (prev : Option Char) (s : List Char), s.length < fuel →
      ∀ i : Nat, MaskRel Q ((reSubF re repl fuel prev s)[i]?) (s[i]?) := by
  intro fuel
  induction fuel with
  | zero => intro prev s h; omega
  | succ fuel ih =>
    intro prev s hlen i
    cases hh : (reMatches re prev s).head? with
    | none =>
      cases s with
      | nil =>
        rw [reSubF_eq_none_nil hh]
        exact maskRel_refl _ _
      | cons c t =>
        rw [reSubF_eq_none_cons hh]
        cases i with
        | zero =>
          simp only [List.getElem?_cons_zero]
          exact maskRel_refl _ _
        | succ i =>
          simpa using ih (some c) t (by simp only [List.length_cons] at hlen; omega) i
    | some m =>
      have hmem := mem_of_head?_eq hh
      have hsplit := reMatches_consumed_append hmem
      obtain ⟨hrl, hrp⟩ := hspec prev s m hmem
      by_cases hc : m.consumed = []
      · have hre : repl m = [] := by
          rw [hc] at hrl
          simpa using hrl
        cases s with
        | nil =>
          rw [reSubF_eq_zero_nil hh hc, hre]
          exact maskRel_refl _ _
        | cons c t =>
          rw [reSubF_eq_zero_cons hh hc, hre, List.nil_append]
          cases i with
          | zero =>
            simp only [List.getElem?_cons_zero]
            exact maskRel_refl _ _
          | succ i =>
            simpa using ih (some c) t (by simp only [List.length_cons] at hlen; omega) i
      · rw [reSubF_eq_repl hh hc]
        have hclen : 0 < m.consumed.length := List.length_pos.mpr hc
        have hslen := congrArg List.length hsplit
        simp only [List.length_append] at hslen
        by_cases hi : i < m.consumed.length
        · rw [List.getElem?_append_left (by omega : i < (repl m).length)]
          rw [← hsplit, List.getElem?_append_left hi]
          exact hrp i
        · push_neg at hi
          rw [List.getElem?_append_right (by omega : (repl m).length ≤ i)]
          rw [← hsplit, List.getElem?_append_right hi, hrl]
          exact ih _ _ (by omega) _

/-- A substitution pass preserves the length of the text whenever every
replacement has the length of its matched span. -/
theorem reSubF_length {re : RE} {repl : MRes → List Char}
    (hlenr : ∀ prev s m, m ∈ reMatches re prev s →
      (repl m).length = m.consumed.length) :
    ∀ (fuel : Nat) (prev : Option Char) (s : List Char), s.length < fuel →
      (reSubF re repl fuel prev s).length = s.length := by
  intro fuel
  induction fuel with
  | zero => intro prev s h; omega
  | succ fuel ih =>
    intro prev s hlen
    cases hh : (reMatches re prev s).head? with
    | none =>
      cases s with
      | nil => rw [reSubF_eq_none_nil hh]
      | cons c t =>
        rw [reSubF_eq_none_cons hh]
        simp only [List.length_cons]
        rw [ih (some c) t (by simp only [List.length_cons] at hlen; omega)]
    | some m =>
      have hmem := mem_of_head?_eq hh
      have hsplit := reMatches_consumed_append hmem
      have hrl := hlenr prev s m hmem
      by_cases hc : m.consumed = []
      · have hre : repl m = [] := by
          rw [hc] at hrl
          simpa using hrl
        cases s with
        | nil => rw [reSubF_eq_zero_nil hh hc, hre]
        | cons c t =>
          rw [reSubF_eq_zero_cons hh hc, hre, List.nil_append]
          simp only [List.length_cons]
          rw [ih (some c) t (by simp only [List.length_cons] at hlen; omega)]
      · rw [reSubF_eq_repl hh hc]
        have hclen : 0 < m.consumed.length := List.length_pos.mpr hc
        have hslen := congrArg List.length hsplit
        simp only [List.length_append] at hslen
        rw [List.length_append, hrl, ih _ _ (by omega)]
        omega

/-- `reSub` output is pointwise `MaskRel Q`-related to its input. -/
theorem reSub_rel {re : RE} {repl : MRes → List Char} {Q : Char → Prop}
    (hspec : ReplSpec re repl Q) (prev : Option Char) (s : List Char) :
    ∀ i : Nat, MaskRel Q ((reSub re repl prev s)[i]?) (s[i]?) :=
  reSubF_rel hspec (s.length + 1) prev s (Nat.lt_succ_self _)

/-- `reSub` preserves length under the length contract. -/
theorem reSub_length {re : RE} {repl : MRes → List Char}
    (hlenr : ∀ prev s m, m ∈ reMatches re prev s →
      (repl m).length = m.consumed.length) (prev : Option Char) (s : List Char) :
    (reSub re repl prev s).length = s.length :=
  reSubF_length hlenr (s.length + 1) prev s (Nat.lt_succ_self _)

/-- Folding `MaskRel Q`-preserving passes preserves the relation. -/
theorem foldl_maskRel {α : Type} {Q : Char → Prop}
    (g : List Char → α → List Char) (L : List α)
    (h : ∀ a ∈ L, ∀ (t : List Char) (i : Nat), MaskRel Q ((g t a)[i]?) (t[i]?)) :
    ∀ (s : List Char) (i : Nat), MaskRel Q ((L.foldl g s)[i]?) (s[i]?) := by
  induction L with
  | nil => intro s i; exact maskRel_refl _ _
  | cons a L ih =>
    intro s i
    rw [List.foldl_cons]
    exact maskRel_trans
      (ih (fun b hb => h b (List.mem_cons_of_mem _ hb)) (g s a) i)
      (h a (List.mem_cons_self _ _) s i)

/-- Folding length-preserving passes preserves length. -/
theorem foldl_length {α : Type} (g : List Char → α → List Char) (L : List α)
    (h : ∀ a ∈ L, ∀ t, (g t a).length = t.length) :
    ∀ s, (L.foldl g s).length = s.length := by
  induction L with
  | nil => intro s; rfl
  | cons a L ih =>
    intro s
    rw [List.foldl_cons, ih (fun b hb => h b (List.mem_cons_of_mem _ hb)),
      h a (List.mem_cons_self _ _)]

/-- The label replacement callback masks exactly the value span: it keeps
group 1 verbatim and replaces group 2 by same-length mask glyphs, and every
masked character was a non-terminator. -/
theorem labelRepl_spec (lbl : List Char) :
    ReplSpec (labelRE lbl) labelRepl (fun c => nonTermChar c = true) := by
  intro prev s m hm
  obtain ⟨cl, w1, cs, w2, cv, hcons, hcaps, _, _, _, _, hcvne, hcvnt⟩ :=
    labelRE_mem hm
  have hrepl : labelRepl m =
      (cl ++ (w1 ++ cs :: w2)) ++ List.replicate cv.length maskGlyph := by
    simp only [labelRepl]
    rw [hcaps]
    rfl
  rw [hrepl, hcons]
  constructor
  · simp
  · intro j
    by_cases hj : j < (cl ++ (w1 ++ cs :: w2)).length
    · rw [List.getElem?_append_left hj, List.getElem?_append_left hj]
      exact Or.inl rfl
    · push_neg at hj
      rw [List.getElem?_append_right hj, List.getElem?_append_right hj]
      by_cases hj2 : j - (cl ++ (w1 ++ cs :: w2)).length < cv.length
      · rw [List.getElem?_replicate_of_lt hj2]
        cases hcv : cv[j - (cl ++ (w1 ++ cs :: w2)).length]? with
        | none =>
          rw [List.getElem?_eq_none_iff] at hcv
          omega
        | some c =>
          exact Or.inr ⟨rfl, c, rfl, hcvnt c (List.getElem?_mem hcv)⟩
      · push_neg at hj2
        rw [List.getElem?_eq_none (by simpa using hj2),
          List.getElem?_eq_none hj2]
        exact Or.inl rfl

/-- The pattern replacement callback masks the whole matched span with
same-length mask glyphs. -/
theorem patternRepl_spec (re : RE) :
    ReplSpec re patternRepl (fun _ => True) := by
  intro prev s m _
  constructor
  · simp [patternRepl, blackout]
  · intro j
    simp only [patternRepl, blackout]
    by_cases hj : j < m.consumed.length
    · rw [List.getElem?_replicate_of_lt hj]
      cases hc : m.consumed[j]? with
      | none =>
        rw [List.getElem?_eq_none_iff] at hc
        omega
      | some c => exact Or.inr ⟨rfl, c, rfl, trivial⟩
    · push_neg at hj
      rw [List.getElem?_eq_none (by simpa using hj), List.getElem?_eq_none hj]
      exact Or.inl rfl

/-- The label pass relates output to input pointwise: each character is
either unchanged or a mask glyph that replaced a non-terminator. -/
theorem redact_labels_rel (s : List Char) :
    ∀ i : Nat, MaskRel (fun c => nonTermChar c = true)
      ((redact_labels s)[i]?) (s[i]?) := by
  intro i
  rw [redact_labels]
  exact foldl_maskRel _ PII_LABELS
    (fun lbl _ t j => reSub_rel (labelRepl_spec lbl.data) none t j) s i

/-- The pattern pass relates output to input pointwise: each character is
either unchanged or a mask glyph. -/
theorem redact_patterns_rel (s : List Char) :
    ∀ i : Nat, MaskRel (fun _ => True) ((redact_patterns s)[i]?) (s[i]?) := by
  intro i
  rw [redact_patterns]
  exact foldl_maskRel _ PATTERNS
    (fun p _ t j => reSub_rel (patternRepl_spec p.2) none t j) s i

/-- The whole pipeline relates output to input pointwise: each character is
either unchanged or a mask glyph. -/
theorem redact_text_content_rel (s : List Char) :
    ∀ i : Nat, MaskRel (fun _ => True)
      ((redact_text_content s)[i]?) (s[i]?) := by
  intro i
  rw [redact_text_content]
  exact maskRel_trans (redact_patterns_rel (redact_labels s) i)
    (maskRel_mono (fun c _ => trivial) (redact_labels_rel s i))

/-- The label pass preserves length. -/
theorem redact_labels_length (s : List Char) :
    (redact_labels s).length = s.length := by
  rw [redact_labels]
  exact foldl_length _ PII_LABELS
    (fun lbl _ t => reSub_length
      (fun prev u m hm => ((labelRepl_spec lbl.data) prev u m hm).1) none t) s

/-- The pattern pass preserves length. -/
theorem redact_patterns_length (s : List Char) :
    (redact_patterns s).length = s.length := by
  rw [redact_patterns]
  exact foldl_length _ PATTERNS
    (fun p _ t => reSub_length
      (fun prev u m hm => ((patternRepl_spec p.2) prev u m hm).1) none t) s

/-- The whole pipeline preserves length. -/
theorem redact_text_content_length (s : List Char) :
    (redact_text_content s).length = s.length := by
  rw [redact_text_content, redact_patterns_length, redact_labels_length]

theorem isDigitChar_glyph : isDigitChar maskGlyph = false := by decide

theorem localChar_glyph : localChar maskGlyph = false := by decide

/-- A class repetition with a positive lower bound has no match in a run of
mask glyphs (the glyph belongs to none of the pattern classes). -/
theorem clsRep_glyph_nil {p : Char → Bool} {lo : Nat} {hi : Option Nat}
    {lz : Bool} {prev : Option Char} {n : Nat}
    (hp : p maskGlyph = false) (hlo : 1 ≤ lo) :
    reMatches (.clsRep p lo hi lz) prev (List.replicate n maskGlyph) = [] := by
  simp only [reMatches, List.takeWhile_replicate, hp, if_false,
    List.length_nil]
  cases hi <;> simp <;> omega

/-- A single class that rejects the glyph has no match in a glyph run. -/
theorem cls_glyph_nil {p : Char → Bool} {prev : Option Char} {n : Nat}
    (hp : p maskGlyph = false) :
    reMatches (.cls p) prev (List.replicate n maskGlyph) = [] := by
  cases n with
  | zero => simp [reMatches]
  | succ n => simp [reMatches, List.replicate_succ, hp]

/-- A concatenation fails when its first component fails. -/
theorem cat_nil_left {a b : RE} {prev : Option Char} {s : List Char}
    (ha : reMatches a prev s = []) : reMatches (.cat a b) prev s = [] := by
  have : reMatches (.cat a b) prev s = (reMatches a prev s).flatMap fun m1 =>
      (reMatches b (prevAfter prev m1.consumed) m1.rest).map fun m2 =>
        ⟨m1.consumed ++ m2.consumed, m2.rest, m1.caps ++ m2.caps⟩ := rfl
  rw [this, ha]
  rfl

/-- A concatenation headed by `\b` fails when its tail fails at the same
position (for any context character). -/
theorem cat_wordB_nil {b : RE} {prev : Option Char} {s : List Char}
    (hb : ∀ prev', reMatches b prev' s = []) :
    reMatches (.cat .wordB b) prev s = [] := by
  have : reMatches (.cat .wordB b) prev s =
      (reMatches .wordB prev s).flatMap fun m1 =>
        (reMatches b (prevAfter prev m1.consumed) m1.rest).map fun m2 =>
          ⟨m1.consumed ++ m2.consumed, m2.rest, m1.caps ++ m2.caps⟩ := rfl
  rw [this]
  simp only [reMatches]
  by_cases hw : optWord prev != optWord s.head?
  · simp [hw, prevAfter, hb]
  · simp [hw]

/-- A concatenation headed by an optional component fails when both the
optional component and the tail fail at the same position. -/
theorem cat_opt_nil {a b : RE} {prev : Option Char} {s : List Char}
    (ha : reMatches a prev s = []) (hb : ∀ prev', reMatches b prev' s = []) :
    reMatches (.cat (.opt a) b) prev s = [] := by
  have : reMatches (.cat (.opt a) b) prev s =
      (reMatches (.opt a) prev s).flatMap fun m1 =>
        (reMatches b (prevAfter prev m1.consumed) m1.rest).map fun m2 =>
          ⟨m1.consumed ++ m2.consumed, m2.rest, m1.caps ++ m2.caps⟩ := rfl
  rw [this]
  have hopt : reMatches (.opt a) prev s = [⟨[], s, []⟩] := by
    have : reMatches (.opt a) prev s = reMatches a prev s ++ [⟨[], s, []⟩] := rfl
    rw [this, ha, List.nil_append]
  rw [hopt]
  simp [prevAfter, hb]

/-- An alternation fails when both branches fail. -/
theorem alt_nil {a b : RE} {prev : Option Char} {s : List Char}
    (ha : reMatches a prev s = []) (hb : reMatches b prev s = []) :
    reMatches (.alt a b) prev s = [] := by
  have : reMatches (.alt a b) prev s =
      reMatches a prev s ++ reMatches b prev s := rfl
  rw [this, ha, hb]
  rfl

/-- The SSN pattern has no match in a run of mask glyphs. -/
theorem ssn_glyph_nil (prev : Option Char) (n : Nat) :
    reMatches ssnRE prev (List.replicate n maskGlyph) = [] :=
  cat_wordB_nil fun _ =>
    cat_nil_left (clsRep_glyph_nil isDigitChar_glyph (by omega))

/-- The phone pattern has no match in a run of mask glyphs. -/
theorem phone_glyph_nil (prev : Option Char) (n : Nat) :
    reMatches phoneRE prev (List.replicate n maskGlyph) = [] :=
  cat_wordB_nil fun _ =>
    cat_opt_nil (cls_glyph_nil (by decide)) fun _ =>
      cat_nil_left (clsRep_glyph_nil isDigitChar_glyph (by omega))

/-- The email pattern has no match in a run of mask glyphs. -/
theorem email_glyph_nil (prev : Option Char) (n : Nat) :
    reMatches emailRE prev (List.replicate n maskGlyph) = [] :=
  cat_wordB_nil fun _ =>
    cat_nil_left (clsRep_glyph_nil localChar_glyph (by omega))

/-- The credit-card pattern has no match in a run of mask glyphs. -/
theorem creditCard_glyph_nil (prev : Option Char) (n : Nat) :
    reMatches creditCardRE prev (List.replicate n maskGlyph) = [] :=
  cat_wordB_nil fun _ =>
    cat_nil_left (cat_nil_left (clsRep_glyph_nil isDigitChar_glyph (by omega)))

/-- The date pattern has no match in a run of mask glyphs. -/
theorem date_glyph_nil (prev : Option Char) (n : Nat) :
    reMatches dateRE prev (List.replicate n maskGlyph) = [] :=
  cat_wordB_nil fun _ =>
    cat_nil_left (alt_nil
      (cat_opt_nil (cls_glyph_nil (by decide)) fun _ =>
        cls_glyph_nil (by decide))
      (cat_nil_left (cls_glyph_nil (by decide))))

/-- A substitution pass is the identity on a glyph run in which the pattern
never matches. -/
theorem reSubF_glyph_id {re : RE} {repl : MRes → List Char}
    (hno : ∀ (prev' : Option Char) (k : Nat),
      reMatches re prev' (List.replicate k maskGlyph) = []) :
    ∀ (fuel : Nat) (prev : Option Char) (n : Nat), n < fuel →
      reSubF re repl fuel prev (List.replicate n maskGlyph) =
        List.replicate n maskGlyph := by
  intro fuel
  induction fuel with
  | zero => intro prev n h; omega
  | succ fuel ih =>
    intro prev n hlen
    have hh : (reMatches re prev (List.replicate n maskGlyph)).head? = none := by
      rw [hno]; rfl
    cases n with
    | zero => exact reSubF_eq_none_nil hh
    | succ n =>
      rw [List.replicate_succ] at hh ⊢
      rw [reSubF_eq_none_cons hh, ih (some maskGlyph) n (by omega)]

/-- Folding steps that fix a point leaves it fixed. -/
theorem foldl_fix {α : Type} (g : List Char → α → List Char) (L : List α)
    (x : List Char) (h : ∀ a ∈ L, g x a = x) : L.foldl g x = x := by
  induction L with
  | nil => rfl
  | cons a L ih =>
    rw [List.foldl_cons, h a (List.mem_cons_self _ _)]
    exact ih fun b hb => h b (List.mem_cons_of_mem _ hb)

/-- The pattern pass maps any run of mask glyphs to itself. -/
theorem redact_patterns_glyph_id (n : Nat) :
    redact_patterns (List.replicate n maskGlyph) = List.replicate n maskGlyph := by
  rw [redact_patterns]
  refine foldl_fix _ PATTERNS _ ?_
  intro p hp
  have hno : ∀ (prev' : Option Char) (k : Nat),
      reMatches p.2 prev' (List.replicate k maskGlyph) = [] := by
    simp only [PATTERNS, List.mem_cons, List.not_mem_nil, or_false] at hp
    rcases hp with rfl | rfl | rfl | rfl | rfl
    · exact ssn_glyph_nil
    · exact phone_glyph_nil
    · exact email_glyph_nil
    · exact creditCard_glyph_nil
    · exact date_glyph_nil
  exact reSubF_glyph_id hno _ none n (Nat.lt_succ_of_le (by simp))

/-- A separator character is not whitespace. -/
theorem sep_not_ws {c : Char} (h : sepChar c = true) : isWSChar c = false := by
  simp only [sepChar, Bool.or_eq_true, decide_eq_true_eq] at h
  rcases h with (rfl | rfl) | rfl <;> decide

/-- A terminator-only character is whitespace. -/
theorem term_is_ws {c : Char} (h : c = '\n' ∨ c = '\x0d') : isWSChar c = true := by
  rcases h with rfl | rfl <;> decide

/-- Splitting a list at the first non-`P` character is unique: if two
decompositions `xs ++ c :: u` and `ys ++ d :: v` agree, with `xs`, `ys`
all-`P` and `c`, `d` not `P`, then they are the same decomposition. -/
theorem ws_sep_split {P : Char → Bool} :
    ∀ (xs ys : List Char) (c d : Char) (u v : List Char),
      (∀ a ∈ xs, P a = true) → (∀ a ∈ ys, P a = true) →
      P c = false → P d = false →
      xs ++ c :: u = ys ++ d :: v → xs = ys ∧ c = d ∧ u = v := by
  intro xs
  induction xs with
  | nil =>
    intro ys c d u v _ hys hc hd heq
    cases ys with
    | nil =>
      simp only [List.nil_append, List.cons.injEq] at heq
      exact ⟨rfl, heq.1, heq.2⟩
    | cons b yt =>
      simp only [List.nil_append, List.cons_append, List.cons.injEq] at heq
      have hb := hys b (List.mem_cons_self _ _)
      rw [← heq.1] at hb
      rw [hb] at hc
      cases hc
  | cons a xt ih =>
    intro ys c d u v hxs hys hc hd heq
    cases ys with
    | nil =>
      simp only [List.cons_append, List.nil_append, List.cons.injEq] at heq
      have ha := hxs a (List.mem_cons_self _ _)
      rw [heq.1] at ha
      rw [ha] at hd
      cases hd
    | cons b yt =>
      simp only [List.cons_append, List.cons.injEq] at heq
      obtain ⟨rfl, heq2⟩ := heq
      obtain ⟨h1, h2, h3⟩ := ih yt c d u v
        (fun x hx => hxs x (List.mem_cons_of_mem _ hx))
        (fun x hx => hys x (List.mem_cons_of_mem _ hx)) hc hd heq2
      exact ⟨by rw [h1], h2, h3⟩

/-- The label pattern has no match at a label occurrence whose separator is
followed only by line terminators (up to the end of the string): the value
class `[^\n\r]+` finds no character to consume. -/
theorem labelRE_no_match_of_term_tail (lbl : List Char) (ws : List Char)
    (sep : Char) (rest : List Char) (prev : Option Char)
    (hws : ∀ c ∈ ws, isWSChar c = true) (hsep : sepChar sep = true)
    (hrest : ∀ c ∈ rest, c = '\n' ∨ c = '\x0d') :
    reMatches (labelRE lbl) prev (lbl ++ ws ++ sep :: rest) = [] := by
  rw [List.eq_nil_iff_forall_not_mem]
  intro m hm
  have hsplit := reMatches_consumed_append hm
  obtain ⟨cl, w1, cs, w2, cv, hcons, -, hcllen, hw1, hcs, hw2, hcvne, hcvnt⟩ :=
    labelRE_mem hm
  rw [hcons] at hsplit
  -- peel off the literal label: lengths agree
  have hlbl : (cl ++ ((w1 ++ cs :: w2) ++ (cv ++ m.rest)) : List Char)
      = lbl ++ (ws ++ sep :: rest) := by
    simpa [List.append_assoc] using hsplit
  have htail : (w1 ++ cs :: w2) ++ (cv ++ m.rest) = ws ++ sep :: rest :=
    List.append_inj_right hlbl hcllen
  have htail2 : w1 ++ cs :: (w2 ++ (cv ++ m.rest)) = ws ++ sep :: rest := by
    simpa [List.append_assoc] using htail
  obtain ⟨-, -, hafter⟩ :=
    ws_sep_split w1 ws cs sep (w2 ++ (cv ++ m.rest)) rest hw1 hws
      (sep_not_ws hcs) (sep_not_ws hsep) htail2
  -- the value lives inside the terminator-only tail
  obtain ⟨c0, hc0⟩ := List.exists_mem_of_ne_nil cv hcvne
  have hc0rest : c0 ∈ rest := by
    rw [← hafter]
    exact List.mem_append_right _ (List.mem_append_left _ hc0)
  have := hcvnt c0 hc0
  rcases hrest c0 hc0rest with rfl | rfl <;> simp [nonTermChar] at this

set_option maxRecDepth 1000000

/-- Claim C5: redaction is length-preserving: the label pass, the pattern
pass, and the whole pipeline `redact_text_content` all return a string of
exactly the length of their input, for every input. -/
theorem C5_length_preserving : ∀ s : List Char,
    (redact_labels s).length = s.length ∧
    (redact_patterns s).length = s.length ∧
    (redact_text_content s).length = s.length :=
  fun s => ⟨redact_labels_length s, redact_patterns_length s,
    redact_text_content_length s⟩

/-- Claim C6: the pipeline is total (it is a function on all strings, and
these theorems about it hold with no side condition), maps the empty string
to the empty string, and alters no character outside masked spans: at every
position the output holds either the unchanged input character or the mask
glyph. -/
theorem C6_total_and_empty :
    redact_text_content [] = [] ∧
    ∀ (s : List Char) (i : Nat),
      (redact_text_content s)[i]? = s[i]? ∨
      (redact_text_content s)[i]? = some maskGlyph := by
  constructor
  · decide
  · intro s i
    rcases redact_text_content_rel s i with heq | ⟨hm, -⟩
    · exact Or.inl heq
    · exact Or.inr hm

/-- Claim C8: a run of mask glyphs (of any length, in any `\b` context)
contains no match of any of the five structural patterns, and the pattern
pass maps such a run to itself. -/
theorem C8_mask_runs_fixed : ∀ (n : Nat) (prev : Option Char),
    reMatches ssnRE prev (List.replicate n maskGlyph) = [] ∧
    reMatches phoneRE prev (List.replicate n maskGlyph) = [] ∧
    reMatches emailRE prev (List.replicate n maskGlyph) = [] ∧
    reMatches creditCardRE prev (List.replicate n maskGlyph) = [] ∧
    reMatches dateRE prev (List.replicate n maskGlyph) = [] ∧
    redact_patterns (List.replicate n maskGlyph) = List.replicate n maskGlyph :=
  fun n prev => ⟨ssn_glyph_nil prev n, phone_glyph_nil prev n,
    email_glyph_nil prev n, creditCard_glyph_nil prev n, date_glyph_nil prev n,
    redact_patterns_glyph_id n⟩

/-- Claim C2, counterexample: the claim says no line terminator is ever
masked, but on `"1 23\n456 7890"` the Phone pattern (its `[-.\s]` separator
class matches a newline) masks the entire string, including the `'\n'` at
index 4. -/
theorem C2_counterexample :
    ("1 23\n456 7890".data)[4]? = some '\n' ∧
    (redact_text_content "1 23\n456 7890".data)[4]? = some maskGlyph ∧
    maskGlyph ≠ '\n' := by decide

/-- Claim C2, amended: the label pass alone preserves every line terminator
at its position (the pattern pass need not, as the counterexample shows). -/
theorem C2_label_pass_preserves_terminators : ∀ (t : List Char) (i : Nat) (c : Char),
    (c = '\n' ∨ c = '\r') → t[i]? = some c →
    (redact_labels t)[i]? = some c := by
  intro t i c hc ht
  rcases redact_labels_rel t i with heq | ⟨-, d, hd, hnt⟩
  · rw [heq, ht]
  · rw [ht] at hd
    rw [Option.some.injEq] at hd
    subst hd
    rcases hc with rfl | rfl <;> simp [nonTermChar] at hnt

/-- Witness for the amended C2 theorem at a concrete input. -/
theorem C2_witness :
    ((('\n' : Char) = '\n' ∨ ('\n' : Char) = '\r') ∧
      ("ssn: x\ny".data)[6]? = some '\n') ∧
    (redact_labels "ssn: x\ny".data)[6]? = some '\n' :=
  ⟨⟨Or.inl rfl, by decide⟩,
    C2_label_pass_preserves_terminators _ 6 '\n' (Or.inl rfl) (by decide)⟩

/-- Claim C3, counterexample: the claim says an empty value (label, then
separator, then immediately a line terminator) is a no-op that leaves
following lines unchanged, but `redact_labels` on `"ssn:\nabc"` masks the
following line: the `\s*` after the separator consumes the newline and
`[^\n\r]+` then matches `"abc"`. -/
theorem C3_counterexample :
    ("ssn" ∈ PII_LABELS) ∧
    redact_labels "ssn:\nabc".data = ("ssn:\n".data ++ List.replicate 3 maskGlyph) ∧
    redact_labels "ssn:\nabc".data ≠ "ssn:\nabc".data := by
  have h : redact_labels "ssn:\nabc".data =
      ("ssn:\n".data ++ List.replicate 3 maskGlyph) := by decide
  exact ⟨by decide, h, by rw [h]; decide⟩

/-- Claim C3, amended: an empty value is a no-op only when nothing but line
terminators follows the separator up to the end of the string; in that case
the label pattern has no match at the occurrence (for any whitespace between
label and separator and any preceding context). -/
theorem C3_empty_value_no_op : ∀ lbl ∈ PII_LABELS, ∀ (ws : List Char) (sep : Char)
    (rest : List Char) (prev : Option Char),
    (∀ c ∈ ws, isWSChar c = true) → sepChar sep = true →
    (∀ c ∈ rest, c = '\n' ∨ c = '\r') →
    reMatches (labelRE lbl.data) prev (lbl.data ++ ws ++ sep :: rest) = [] := by
  intro lbl _ ws sep rest prev hws hsep hrest
  exact labelRE_no_match_of_term_tail _ _ _ _ _ hws hsep hrest

/-- Witness for the amended C3 theorem at a concrete occurrence. -/
theorem C3_witness :
    ("ssn" ∈ PII_LABELS ∧ (∀ c ∈ ([] : List Char), isWSChar c = true) ∧
      sepChar ':' = true ∧ (∀ c ∈ ['\n'], c = '\n' ∨ c = '\r')) ∧
    reMatches (labelRE "ssn".data) none ("ssn".data ++ [] ++ ':' :: ['\n']) = [] :=
  ⟨⟨by decide, by simp, by decide, by decide⟩,
    C3_empty_value_no_op "ssn" (by decide) [] ':' ['\n'] none
      (by simp) (by decide) (by decide)⟩

/-- Evaluation of the pipeline on the C4 input: the Phone pattern runs
before CreditCard and matches the first fourteen characters
`4111-1111-1111` of the value (ending at the word boundary before the last
`-`), so only they are masked and `-1111` survives. -/
theorem card_eval : redact_text_content "Card: 4111-1111-1111-1111".data =
    ("Card: ".data ++ (List.replicate 14 maskGlyph ++ "-1111".data)) := by
  decide

/-- Claim C4, counterexample: the output is not `"Card: "` followed by
nineteen mask glyphs. -/
theorem C4_counterexample :
    redact_text_content "Card: 4111-1111-1111-1111".data ≠
      ("Card: ".data ++ List.replicate 19 maskGlyph) := by
  rw [card_eval]
  decide

/-- Claim C4, amended: no catalog label matches this input, so the label
rule never fires; the Phone pattern masks the first fourteen characters of
the card number and leaves `-1111` in clear, and the output still has the
input's length (no pass produces a mask of mismatched length). -/
theorem C4_card_masking :
    redact_text_content "Card: 4111-1111-1111-1111".data =
      ("Card: ".data ++ (List.replicate 14 maskGlyph ++ "-1111".data)) ∧
    (redact_text_content "Card: 4111-1111-1111-1111".data).length =
      ("Card: 4111-1111-1111-1111".data).length :=
  ⟨card_eval, redact_text_content_length _⟩

/-- Claim C7: the label `"id"` is a catalog entry and label matching is not
anchored at a word boundary, so in `"Paid: $5"` the suffix `"id"` of
`"Paid"` matches and the value `"$5"` is masked. -/
theorem C7_id_suffix_match :
    ("id" ∈ PII_LABELS) ∧
    redact_text_content "Paid: $5".data =
      ("Paid: ".data ++ List.replicate 2 maskGlyph) :=
  ⟨by decide, by decide⟩

/-- Claim C9: label matching is case-insensitive: upper-case and lower-case
`ssn` labels both get their 11-character value masked by the same run of
eleven mask glyphs, with the label portion unchanged. -/
theorem C9_case_insensitive :
    redact_text_content "SSN: 123-45-6789".data =
      ("SSN: ".data ++ List.replicate 11 maskGlyph) ∧
    redact_text_content "ssn: 123-45-6789".data =
      ("ssn: ".data ++ List.replicate 11 maskGlyph) :=
  ⟨by decide, by decide⟩

/-- Claim C10: free-standing PII is caught by the pattern pass without any
label: exactly the email substring (sixteen characters) is masked and every
surrounding character is unchanged. -/
theorem C10_email_pattern :
    redact_text_content "Contact me at john@example.com today".data =
      ("Contact me at ".data ++ (List.replicate 16 maskGlyph ++ " today".data)) := by
  decide

end Redact
